import Mathlib

/-!
Verification of the book-box reading-status pipeline.

The development shallowly embeds the JavaScript source (`src/index.js` and the
two earlier pipeline revisions) into Lean:

* strings are `List Char` / `String`;
* the regular expressions of the source are translated into explicit
  backtracking matchers with JavaScript semantics (leftmost match, lazy and
  greedy quantifier preferences, case-insensitive flag via `Char.toLower`,
  `.` excluding line terminators, `\s`/`\w` over the ASCII range);
* external collaborators (the `wordwrap` library, `toLocaleDateString`,
  date parsing, the network, the RSS parsing library and the gist store)
  are modelled as parameters or explicit inputs: timestamps are `Int`, a
  wrap function is `String → String`, the remote gist is a `Gist` value and
  a failed read of it is `none`.
-/

/-! ### Character classes (ASCII fragment of the JavaScript classes) -/

/-- JavaScript `\s` (ASCII part): space, tab, line feed, vertical tab,
form feed, carriage return. -/
def isSpaceChar (c : Char) : Bool :=
  c = ' ' || c = '\t' || c = '\n' || c = '\x0b' || c = '\x0c' || c = '\r'

/-- JavaScript `\w`: letters, digits and underscore. -/
def isWordChar (c : Char) : Bool :=
  c.isAlpha || c.isDigit || c = '_'

/-- The character class `[a-zA-Z0-9#]` used in the lookahead of the
ampersand-escaping replacement of `sanitizeXML`. -/
def isEntityChar (c : Char) : Bool :=
  c.isAlpha || c.isDigit || c = '#'

/-- JavaScript `.` (no `s` flag): everything except line terminators. -/
def isDotChar (c : Char) : Bool :=
  !(c = '\n' || c = '\r')

/-- A quote character, the class `['"]`. -/
def isQuote (c : Char) : Bool :=
  c = '\'' || c = '"'

/-- JavaScript `String.prototype.trim` on a character list. -/
def trimL (l : List Char) : List Char :=
  ((l.dropWhile isSpaceChar).reverse.dropWhile isSpaceChar).reverse

/-- `trimL` packaged on `String`, as the source's `.trim()`. -/
def trimS (s : String) : String :=
  String.mk (trimL s.data)

/-- Lower-casing used for the `toLowerCase()` guards. -/
def lowerS (s : String) : String :=
  String.mk (s.data.map Char.toLower)

/-- Does `needle` occur at the head of `l`? -/
def leadsWith : List Char → List Char → Bool
  | [], _ => true
  | _ :: _, [] => false
  | c :: p, d :: l => c = d && leadsWith p l

/-- JavaScript `String.prototype.includes`: `needle` occurs somewhere in the
haystack. -/
def hasSubstring (needle : List Char) : List Char → Bool
  | [] => leadsWith needle []
  | c :: rest => leadsWith needle (c :: rest) || hasSubstring needle rest

/-- Case-insensitive literal matching: consume `pat` (compared through
`Char.toLower`, the `i` flag) from the head of the input, returning the rest. -/
def dropCI : List Char → List Char → Option (List Char)
  | [], l => some l
  | _ :: _, [] => none
  | c :: p, d :: l => if c.toLower = d.toLower then dropCI p l else none

/-- Consume the literal character list `pat` from the head of the input. -/
def dropLit : List Char → List Char → Option (List Char)
  | [], l => some l
  | _ :: _, [] => none
  | c :: p, d :: l => if c = d then dropLit p l else none

/-! ### The XML sanitizer of `src/index.js`

`sanitizeXML` is two global regex replacements applied in order:

1. `xml.replace(/&(?![a-zA-Z0-9#]+;)/g, '&amp;')`;
2. `cleaned.replace(/<(\w+)([^>]*?)(?:\s*\/)?>([^<]*)<\/\1>/g, fn)` where the
   replacement function re-escapes ampersands of the content group and
   reassembles `<tag attrs>content</tag>`.
-/

/-- The lookahead `[a-zA-Z0-9#]+;`: `seen` records whether at least one
class character has been consumed.  Since `;` is not in the class, only the
maximal class run can be followed by `;`, so this scan is equivalent to the
backtracking regex. -/
def entityFollowsAux : List Char → Bool → Bool
  | [], _ => false
  | c :: rest, seen =>
    if isEntityChar c then entityFollowsAux rest true
    else if c = ';' then seen else false

/-- Does `[a-zA-Z0-9#]+;` match at the head of `l`? -/
def entityFollows (l : List Char) : Bool :=
  entityFollowsAux l false

/-- Replacement 1 of `sanitizeXML`: every `&` not followed by
`[a-zA-Z0-9#]+;` becomes `&amp;`.  The lookahead is zero-width, so scanning
continues right after the `&` and classifies each `&` against the original
suffix, exactly as a global regex replace does. -/
def ampEscape : List Char → List Char
  | [] => []
  | c :: rest =>
    if c = '&' then
      if entityFollows rest then '&' :: ampEscape rest
      else '&' :: 'a' :: 'm' :: 'p' :: ';' :: ampEscape rest
    else c :: ampEscape rest

/-- After `(?:\s*\/)?` has been decided and `>` consumed: take the greedy
`([^<]*)` content group and require the closing tag `</tag>`.  Returns the
content and the input remaining after the whole match.  (No shorter content
can succeed: a shorter `[^<]*` leaves a non-`<` character where `<` is
required.) -/
def tryGtContent (tag : List Char) (l : List Char) : Option (List Char × List Char) :=
  match l with
  | '>' :: l1 =>
    let content := l1.takeWhile (fun c => c ≠ '<')
    match dropLit ('<' :: '/' :: (tag ++ ['>'])) (l1.drop content.length) with
    | some rest => some (content, rest)
    | none => none
  | _ => none

/-- The `(?:\s*\/)?>` part.  The group is greedy: first try the maximal
space run followed by `/` (shorter space runs cannot reach a `/`), then the
empty alternative. -/
def tryAfterAttrs (tag : List Char) (l : List Char) : Option (List Char × List Char) :=
  let l1 := l.dropWhile isSpaceChar
  let viaSlash :=
    match l1 with
    | '/' :: l2 => tryGtContent tag l2
    | _ => none
  match viaSlash with
  | some r => some r
  | none => tryGtContent tag l

/-- The lazy attribute group `([^>]*?)`: try the continuation with the
attributes collected so far, and only on failure extend them by one more
non-`>` character.  Returns (attributes, content, rest-after-match). -/
def tryAttrs (tag : List Char) (acc : List Char) :
    List Char → Option (List Char × List Char × List Char)
  | [] =>
    match tryAfterAttrs tag [] with
    | some (content, rest) => some (acc.reverse, content, rest)
    | none => none
  | c :: l' =>
    match tryAfterAttrs tag (c :: l') with
    | some (content, rest) => some (acc.reverse, content, rest)
    | none => if c = '>' then none else tryAttrs tag (c :: acc) l'

/-- The greedy tag group `(\w+)`: try tag lengths from the maximal word-run
length downwards. -/
def tryTagLen (l : List Char) : Nat → Option (List Char × List Char × List Char × List Char)
  | 0 => none
  | n + 1 =>
    let tag := l.take (n + 1)
    match tryAttrs tag [] (l.drop (n + 1)) with
    | some (attrs, content, rest) => some (tag, attrs, content, rest)
    | none => tryTagLen l n

/-- Attempt the full tag pattern `<(\w+)([^>]*?)(?:\s*\/)?>([^<]*)<\/\1>`
at the head of the input. -/
def tryMatchAt : List Char → Option (List Char × List Char × List Char × List Char)
  | '<' :: l1 => tryTagLen l1 (l1.takeWhile isWordChar).length
  | _ => none

/-- Global replacement 2 of `sanitizeXML`: scan left to right; at a match,
emit `<tag attrs>` ++ escaped content ++ `</tag>` and resume after the match,
otherwise copy one character.  `fuel` bounds the recursion; every step
consumes at least one character, so `fuel = length` is always enough. -/
def fixTagsAux : Nat → List Char → List Char
  | 0, l => l
  | _ + 1, [] => []
  | fuel + 1, c :: rest =>
    match tryMatchAt (c :: rest) with
    | some (tag, attrs, content, restAfter) =>
      '<' :: (tag ++ attrs ++ ('>' :: (ampEscape content ++
        ('<' :: '/' :: (tag ++ ('>' :: fixTagsAux fuel restAfter))))))
    | none => c :: fixTagsAux fuel rest

/-- `sanitizeXML` from `src/index.js`: the ampersand replacement followed by
the tag-repair replacement. -/
def sanitizeXML (s : String) : String :=
  let cleaned := ampEscape s.data
  String.mk (fixTagsAux cleaned.length cleaned)

/-! ### The specification's entity grammar (for comparison with the code)

The spec describes the escaping rule with the entity grammar
`[a-zA-Z][a-zA-Z0-9]*;` | `#[0-9]+;` | `#x[0-9a-fA-F]+;`, which differs from
the code's `[a-zA-Z0-9#]+;`. -/

/-- Modelled from the spec: `[a-zA-Z0-9]*;` (the tail of a named entity). -/
def specNamedTail : List Char → Bool
  | [] => false
  | c :: r => if c = ';' then true else if c.isAlpha || c.isDigit then specNamedTail r else false

/-- Modelled from the spec: `[0-9]+;`. -/
def specDecTail : List Char → Bool
  | [] => false
  | c :: r => if c.isDigit then (match r with
      | ';' :: _ => true
      | _ => specDecTail r)
    else false

/-- Modelled from the spec: `[0-9a-fA-F]+;`. -/
def specHexTail : List Char → Bool
  | [] => false
  | c :: r =>
    if c.isDigit || ('a' ≤ c && c ≤ 'f') || ('A' ≤ c && c ≤ 'F') then
      (match r with
       | ';' :: _ => true
       | _ => specHexTail r)
    else false

/-- Modelled from the spec: a valid entity reference
(`[a-zA-Z][a-zA-Z0-9]*;`, `#[0-9]+;`, or `#x[0-9a-fA-F]+;`) starts here. -/
def specValidEntityFollows : List Char → Bool
  | [] => false
  | c :: r =>
    if c = '#' then
      (match r with
       | 'x' :: r' => specHexTail r'
       | _ => specDecTail r)
    else if c.isAlpha then specNamedTail r
    else false

/-! ### Feed entries

One RSS item as the pipeline sees it after the external RSS parser: a title,
the four candidate description fields (`||`-chained in the source, so an
empty string falls through), and an optional publication timestamp
(`new Date(item.pubDate)` is modelled as an `Int`). -/

structure Item where
  title : Option String
  contentSnippet : Option String
  itemContent : Option String
  description : Option String
  contentEncoded : Option String
  pubDate : Option Int
deriving DecidableEq

/-- JavaScript `a || b` on a possibly-absent string: absent and empty are
falsy. -/
def jsOr (o : Option String) (d : String) : String :=
  match o with
  | some s => if s = "" then d else s
  | none => d

/-- `item.contentSnippet || item.content || item.description ||
(item['content:encoded'] || '')`. -/
def descriptionOf (it : Item) : String :=
  jsOr it.contentSnippet (jsOr it.itemContent (jsOr it.description (jsOr it.contentEncoded "")))

/-- `(item.title || '').trim()`. -/
def titleOf (it : Item) : String :=
  trimS (jsOr it.title "")

/-! ### The Goodreads pattern matchers of `src/index.js`

`/is currently reading\s+['"](.+?)['"]$/i` and `/added\s+['"](.+?)['"]$/i`
share one shape: a case-insensitive literal, `\s+`, an opening quote, a lazy
non-empty capture, and a closing quote anchored at the end of the string.
Because of the `$` anchor the closing quote must be the final character, so
the capture is everything between the opening quote and the final character,
all of it free of line terminators. -/

/-- Attempt the `marker\s+['"](.+?)['"]$` pattern at the head of the input. -/
def attemptMarkerQuoted (marker : List Char) (l : List Char) : Option (List Char) :=
  match dropCI marker l with
  | none => none
  | some r1 =>
    let sp := r1.takeWhile isSpaceChar
    if sp.isEmpty then none
    else
      match r1.dropWhile isSpaceChar with
      | q :: tail =>
        if isQuote q then
          match tail.getLast? with
          | some q2 =>
            if isQuote q2 && !tail.dropLast.isEmpty && tail.dropLast.all isDotChar then
              some tail.dropLast
            else none
          | none => none
        else none
      | [] => none

/-- Leftmost match of `marker\s+['"](.+?)['"]$`, returning the capture. -/
def scanMarkerQuoted (marker : List Char) : List Char → Option (List Char)
  | [] => none
  | c :: rest =>
    match attemptMarkerQuoted marker (c :: rest) with
    | some cap => some cap
    | none => scanMarkerQuoted marker rest

/-- Attempt `by\s+([^<]+)` at the head of the input.  `\s+` is greedy; when
the character after the maximal space run cannot start `[^<]+` (it is `<` or
the string ends), the regex backtracks one space, which then becomes the
whole capture — possible only when the run has at least two spaces. -/
def attemptBy (l : List Char) : Option (List Char) :=
  match dropCI ('b' :: 'y' :: []) l with
  | none => none
  | some r =>
    let sp := r.takeWhile isSpaceChar
    if sp.isEmpty then none
    else
      match r.dropWhile isSpaceChar with
      | c :: r' =>
        if c = '<' then
          if 2 ≤ sp.length then some (sp.drop (sp.length - 1)) else none
        else some (c :: r'.takeWhile (fun d => d ≠ '<'))
      | [] => if 2 ≤ sp.length then some (sp.drop (sp.length - 1)) else none

/-- Leftmost match of `/by\s+([^<]+)/i`, returning the capture. -/
def scanBy : List Char → Option (List Char)
  | [] => none
  | c :: rest =>
    match attemptBy (c :: rest) with
    | some cap => some cap
    | none => scanBy rest

/-- The currently-reading branch of the Goodreads loop: the
`is currently reading` guard on the lower-cased title, the quoted-title
pattern, and the author pattern on the description; the book title and the
author are `.trim()`ed captures. -/
def extractCRgr (it : Item) : Option (String × String) :=
  let title := titleOf it
  let desc := descriptionOf it
  if hasSubstring "is currently reading".data (lowerS title).data then
    match scanMarkerQuoted "is currently reading".data title.data with
    | some cap =>
      match scanBy desc.data with
      | some acap => some (String.mk (trimL cap), String.mk (trimL acap))
      | none => none
    | none => none
  else none

/-- The finished-book branch of the Goodreads loop: the `added '` guard on
the lower-cased title plus the `stars` guard on the lower-cased description,
the quoted-title pattern, the author pattern, and a present timestamp. -/
def extractFinishedGR (it : Item) : Option (String × String × Int) :=
  let title := titleOf it
  let desc := descriptionOf it
  if hasSubstring "added '".data (lowerS title).data
      && hasSubstring "stars".data (lowerS desc).data then
    match scanMarkerQuoted "added".data title.data with
    | some cap =>
      match scanBy desc.data, it.pubDate with
      | some acap, some d => some (String.mk (trimL cap), String.mk (trimL acap), d)
      | _, _ => none
    | none => none
  else none

/-- One entry of `recentlyReadBooks` in `src/index.js`. -/
structure Book where
  title : String
  author : String
  date : String
  pubDate : Int
deriving DecidableEq

/-- The mutable state of the Goodreads extraction loop. -/
structure GRState where
  crTitle : String
  crAuthor : String
  crStart : String
  books : List Book
deriving DecidableEq

/-- One iteration of the Goodreads loop (`src/index.js` lines 77–138): the
currently-reading branch overwrites title and author on a full match and the
start date only when the item has a timestamp; the finished branch appends
to `recentlyReadBooks` when the timestamp is within the horizon
(`finishDate >= sixMonthsAgo`). -/
def stepGR (cutoff : Int) (fmt : Int → String) (st : GRState) (it : Item) : GRState :=
  let st1 :=
    match extractCRgr it with
    | some (t, a) =>
      { st with
        crTitle := t
        crAuthor := a
        crStart :=
          match it.pubDate with
          | some d => fmt d
          | none => st.crStart }
    | none => st
  match extractFinishedGR it with
  | some (t, a, d) =>
    if cutoff ≤ d then { st1 with books := st1.books ++ [⟨t, a, fmt d, d⟩] }
    else st1
  | none => st1

/-- The initial loop state: all fields empty. -/
def grInit : GRState := ⟨"", "", "", []⟩

/-- The whole Goodreads extraction loop over the feed items. -/
def extractGR (cutoff : Int) (fmt : Int → String) (items : List Item) : GRState :=
  items.foldl (stepGR cutoff fmt) grInit

/-- Stable descending insertion by `pubDate`: a book is placed after every
book with a greater-or-equal timestamp, which is what the stable
`sort((a, b) => b.pubDate - a.pubDate)` of the source produces. -/
def insertBook (b : Book) : List Book → List Book
  | [] => [b]
  | c :: rest => if c.pubDate < b.pubDate then b :: c :: rest else c :: insertBook b rest

/-- `recentlyReadBooks.sort((a, b) => b.pubDate - a.pubDate)`. -/
def sortBooks (l : List Book) : List Book :=
  l.foldl (fun acc b => insertBook b acc) []

/-- JavaScript `title.split(':')[0]`: the subtitle-stripping step. -/
def splitColonHead (s : String) : String :=
  String.mk (s.data.takeWhile (fun c => c ≠ ':'))

/-- The currently-reading segment of `src/index.js` (lines 140–143). -/
def renderCRgr (st : GRState) : String :=
  if st.crTitle ≠ "" ∧ st.crAuthor ≠ "" then
    "Currently reading: " ++ splitColonHead st.crTitle ++ " by " ++ st.crAuthor
      ++ (if st.crStart ≠ "" then " (started " ++ st.crStart ++ ")" else "") ++ "\n"
  else "I'm not reading anything at the moment.\n"

/-- The recently-read segment of `src/index.js` (lines 146–151), rendered
from the sorted book list. -/
def renderRRgr (books : List Book) : String :=
  if 0 < books.length then
    String.intercalate "\n"
      (books.map (fun b =>
        "Recently read: " ++ splitColonHead b.title ++ " by " ++ b.author
          ++ " (" ++ b.date ++ ")"))
  else "I haven't read anything recently."

/-! ### The simple-convention pattern matchers (`src/unnamed/part_000`)

`/(?:currently reading[:\s]+)?(.+?)\s+by\s+(.+?)(?:\s|$)/i` and
`/(?:finished|read)[:\s]+(.+?)\s+by\s+(.+?)(?:\s|$)/i`.  Both end in
`\s+(.+?)(?:\s|$)`: the lazy author group stops at the first position whose
next character is whitespace (or at the end of the string). -/

/-- The tail `\s+(.+?)(?:\s|$)` of the simple patterns.  `\s+` is greedy;
after the maximal space run the next character (necessarily not a space, so
also not a line terminator) starts the capture, which extends to the next
space.  If the string ends right after the space run, the regex backtracks
one space, which then is the whole capture — possible only when the run has
at least two spaces. -/
def afterByGroup2 (l : List Char) : Option (List Char) :=
  let sp := l.takeWhile isSpaceChar
  if sp.isEmpty then none
  else
    match l.dropWhile isSpaceChar with
    | c :: r => some (c :: r.takeWhile (fun d => !isSpaceChar d))
    | [] => if 2 ≤ sp.length then some (sp.drop (sp.length - 1)) else none

/-- The continuation `\s+by\s+(.+?)(?:\s|$)` after the title group: a
non-empty space run, the literal `by` (case-insensitive), then the author
tail.  Only the maximal space run can be followed by `b`/`B`. -/
def contAfterG1 (l : List Char) : Option (List Char) :=
  let sp := l.takeWhile isSpaceChar
  if sp.isEmpty then none
  else
    match dropCI ('b' :: 'y' :: []) (l.dropWhile isSpaceChar) with
    | some r2 => afterByGroup2 r2
    | none => none

/-- The lazy title group `(.+?)` plus its continuation: try the continuation
with the title collected so far (at least one character) and only on failure
extend the title by one more `.`-class character. -/
def bodyAux (acc : List Char) : List Char → Option (List Char × List Char)
  | [] =>
    match contAfterG1 [] with
    | some g2 => some (acc.reverse, g2)
    | none => none
  | c :: l' =>
    match contAfterG1 (c :: l') with
    | some g2 => some (acc.reverse, g2)
    | none => if isDotChar c then bodyAux (c :: acc) l' else none

/-- Attempt `(.+?)\s+by\s+(.+?)(?:\s|$)` at the head of the input, returning
the two captures. -/
def bodyMatch : List Char → Option (List Char × List Char)
  | [] => none
  | c :: r => if isDotChar c then bodyAux [c] r else none

/-- The class `[:\s]`. -/
def isColonSpace (c : Char) : Bool :=
  c = ':' || isSpaceChar c

/-- The greedy run `[:\s]+` before the title group: try run lengths from the
maximal one downwards (at least one character), each followed by the body. -/
def tryColonRunBody (r : List Char) : Nat → Option (List Char × List Char)
  | 0 => none
  | j + 1 =>
    match bodyMatch (r.drop (j + 1)) with
    | some res => some res
    | none => tryColonRunBody r j

/-- Attempt the currently-reading pattern at the head of the input: the
optional (greedy, so tried first) prefix `currently reading[:\s]+`, then the
body. -/
def attemptCRsimple (l : List Char) : Option (List Char × List Char) :=
  let viaMarker :=
    match dropCI "currently reading".data l with
    | some r => tryColonRunBody r (r.takeWhile isColonSpace).length
    | none => none
  match viaMarker with
  | some res => some res
  | none => bodyMatch l

/-- Attempt the finished pattern at the head of the input: the mandatory
alternation `(?:finished|read)` (alternatives in order), `[:\s]+`, then the
body. -/
def attemptFinishedSimple (l : List Char) : Option (List Char × List Char) :=
  let viaFin :=
    match dropCI "finished".data l with
    | some r => tryColonRunBody r (r.takeWhile isColonSpace).length
    | none => none
  match viaFin with
  | some res => some res
  | none =>
    match dropCI "read".data l with
    | some r => tryColonRunBody r (r.takeWhile isColonSpace).length
    | none => none

/-- Leftmost match of the simple currently-reading pattern. -/
def scanCRsimple : List Char → Option (List Char × List Char)
  | [] => none
  | c :: rest =>
    match attemptCRsimple (c :: rest) with
    | some res => some res
    | none => scanCRsimple rest

/-- Leftmost match of the simple finished pattern. -/
def scanFinishedSimple : List Char → Option (List Char × List Char)
  | [] => none
  | c :: rest =>
    match attemptFinishedSimple (c :: rest) with
    | some res => some res
    | none => scanFinishedSimple rest

/-- The currently-reading branch of the simple loop
(`src/unnamed/part_000` lines 84–91): the marker guard on the lower-cased
title or description, then the title pattern with `.trim()`ed captures. -/
def extractCRsimple (it : Item) : Option (String × String) :=
  let title := titleOf it
  let desc := descriptionOf it
  if hasSubstring "currently reading".data (lowerS title).data
      || hasSubstring "currently reading".data (lowerS desc).data then
    match scanCRsimple title.data with
    | some (g1, g2) => some (String.mk (trimL g1), String.mk (trimL g2))
    | none => none
  else none

/-- The finished branch of the simple loop (`src/unnamed/part_000` lines
94–103): the `finished`/`read` guard, the exclusion of `currently reading`
titles, then the finished pattern with `.trim()`ed captures. -/
def extractFinishedSimple (it : Item) : Option (String × String) :=
  let title := titleOf it
  let lt := (lowerS title).data
  if (hasSubstring "finished".data lt || hasSubstring "read".data lt)
      && !hasSubstring "currently reading".data lt then
    match scanFinishedSimple title.data with
    | some (g1, g2) => some (String.mk (trimL g1), String.mk (trimL g2))
    | none => none
  else none

/-- The mutable state of the simple extraction loop. -/
structure SimpleState where
  crTitle : String
  crAuthor : String
  rrTitle : String
  rrAuthor : String
deriving DecidableEq

/-- The currently-reading update of one simple-loop iteration. -/
def simpleStep1 (st : SimpleState) (it : Item) : SimpleState :=
  match extractCRsimple it with
  | some (t, a) => { st with crTitle := t, crAuthor := a }
  | none => st

/-- The simple extraction loop (`src/unnamed/part_000` lines 73–104): the
currently-reading branch never stops the loop; the finished branch records
the first finished book and then `break`s, leaving the remaining items
unvisited. -/
def simpleLoop : SimpleState → List Item → SimpleState
  | st, [] => st
  | st, it :: rest =>
    let st1 := simpleStep1 st it
    match extractFinishedSimple it with
    | some (t, a) => { st1 with rrTitle := t, rrAuthor := a }
    | none => simpleLoop st1 rest

/-- The initial simple-loop state: all fields empty. -/
def simpleInit : SimpleState := ⟨"", "", "", ""⟩

/-- The items the simple loop actually iterates: everything up to and
including the first item whose finished pattern matches (the `break`). -/
def visitedSimple : List Item → List Item
  | [] => []
  | it :: rest =>
    it :: (if (extractFinishedSimple it).isSome then [] else visitedSimple rest)

/-- The currently-reading segment of `src/unnamed/part_000` (lines 107–109). -/
def renderCRsimple (st : SimpleState) : String :=
  if st.crTitle ≠ "" ∧ st.crAuthor ≠ "" then
    "Currently reading: " ++ splitColonHead st.crTitle ++ " by " ++ st.crAuthor ++ "\n"
  else "I'm not reading anything at the moment.\n"

/-- The recently-read segment of `src/unnamed/part_000` (lines 112–114). -/
def renderRRsimple (st : SimpleState) : String :=
  if st.rrTitle ≠ "" ∧ st.rrAuthor ≠ "" then
    "Recently read: " ++ splitColonHead st.rrTitle ++ " by " ++ st.rrAuthor
  else "I haven't read anything recently."

/-! ### The gist publisher (`updateGist` of `src/index.js`, lines 170–207)

The remote store is modelled explicitly: a `Gist` is its file list in key
order, a failed `octokit.gists.get` is `none`.  The observable effect of a
run is a `PublishResult`; `writesOf` lists the write calls it performs. -/

/-- One file of the remote gist: its key and its current content. -/
structure GistFile where
  filename : String
  fileContent : String
deriving DecidableEq

/-- The remote gist: its files in `Object.keys` order. -/
structure Gist where
  files : List GistFile
deriving DecidableEq

/-- The observable outcome of one `updateGist` call. -/
inductive PublishResult where
  | noCredentials
  | readFailed
  | noFiles
  | skippedUnchanged
  | updated (filename : String) (newContent : String)
deriving DecidableEq

/-- The write calls a publish outcome performs against the remote store. -/
def writesOf : PublishResult → List (String × String)
  | .updated fn c => [(fn, c)]
  | _ => []

/-- `updateGist(readingStatus)`: bail without a write when credentials are
missing, when the gist cannot be read, or (in the model, where the source
would throw out of the function before any write) when it has no files;
skip the write when the first file's content equals
`readingStatus.join('\n')`; otherwise write exactly that file. -/
def updateGist (hasCredentials : Bool) (fetched : Option Gist)
    (readingStatus : List String) : PublishResult :=
  if !hasCredentials then .noCredentials
  else
    match fetched with
    | none => .readFailed
    | some g =>
      match g.files with
      | [] => .noFiles
      | f :: _ =>
        let newContent := String.intercalate "\n" readingStatus
        if f.fileContent = newContent then .skippedUnchanged
        else .updated f.filename newContent

/-- Replace the content of the (first) file with the given key. -/
def replaceFile (fn : String) (c : String) : List GistFile → List GistFile
  | [] => []
  | f :: rest =>
    if f.filename = fn then ⟨f.filename, c⟩ :: rest else f :: replaceFile fn c rest

/-- The effect of a publish outcome on the remote gist, assuming the write
call succeeds. -/
def applyPublish (g : Gist) : PublishResult → Gist
  | .updated fn c => ⟨replaceFile fn c g.files⟩
  | _ => g

/-! ### The top level (`main` of `src/index.js`)

Fetching and parsing are external; a run's input is either a fetch failure
(the outer `catch`), a parse failure after both parse attempts (the inner
`catch`), or the parsed item list.  The `wordwrap(100)` of `main` and the
`wordwrap(58)` built inside the outer catch are parameters, as is the
`toLocaleDateString` formatter and the `sixMonthsAgo` cutoff. -/

/-- The outcome of the fetch-and-parse stage. -/
inductive FeedInput where
  | fetchFail
  | parseFail
  | parsed (items : List Item)
deriving DecidableEq

/-- The currently-reading fallback literal. -/
def fallbackCR : String := "I'm not reading anything at the moment.\n"

/-- The recently-read fallback literal. -/
def fallbackRR : String := "I haven't read anything recently."

/-- The two-segment snapshot `main` hands to `updateGist` for a given run
input. -/
def snapshotOf (wrapMain wrapCatch : String → String) (cutoff : Int)
    (fmt : Int → String) : FeedInput → List String
  | .fetchFail => [wrapCatch fallbackCR, wrapCatch fallbackRR]
  | .parseFail => [wrapMain fallbackCR, wrapMain fallbackRR]
  | .parsed items =>
    let st := extractGR cutoff fmt items
    [wrapMain (renderCRgr st), wrapMain (renderRRgr (sortBooks st.books))]

/-- One full run of `main`: extraction (or the fail-soft fallback) followed
by the single `updateGist` call. -/
def mainRun (wrapMain wrapCatch : String → String) (cutoff : Int)
    (fmt : Int → String) (hasCredentials : Bool) (fetched : Option Gist)
    (input : FeedInput) : PublishResult :=
  updateGist hasCredentials fetched (snapshotOf wrapMain wrapCatch cutoff fmt input)

/-- The book a single item contributes to `recentlyReadBooks`: its finished
fact when the fact's timestamp is within the horizon. -/
def finishedBookOf (cutoff : Int) (fmt : Int → String) (it : Item) : Option Book :=
  match extractFinishedGR it with
  | some (t, a, d) => if cutoff ≤ d then some ⟨t, a, fmt d, d⟩ else none
  | none => none

/-! ### Concrete fixtures for witnesses and counterexamples -/

/-- The identity wrap function (a concrete stand-in for `wordwrap`, which
leaves these short lines unchanged anyway). -/
def wrapId : String → String := fun s => s

/-- A concrete date formatter. -/
def fmtConst : Int → String := fun _ => "d"

/-- A Goodreads item: a finished book with a rating in its description and
timestamp 5. -/
def itemAddedDune : Item :=
  ⟨some "added 'Dune'", none, none, some "by Frank Herbert stars", none, some 5⟩

/-- A Goodreads currently-reading item with a timestamp. -/
def itemCRdated : Item :=
  ⟨some "is currently reading 'Dune'", none, none, some "by Frank Herbert", none, some 10⟩

/-- The same currently-reading match but without a timestamp. -/
def itemCRundated : Item :=
  ⟨some "is currently reading 'Dune'", none, none, some "by Frank Herbert", none, none⟩

/-- A simple-convention currently-reading item. -/
def itemCRone : Item :=
  ⟨some "Currently reading Dune by Frank Herbert", none, none, none, none, none⟩

/-- A second simple-convention currently-reading item, for a different book. -/
def itemCRtwo : Item :=
  ⟨some "Currently reading Hyperion by Dan Simmons", none, none, none, none, none⟩

/-- A simple-convention finished item (it triggers the loop's `break`). -/
def itemFinBreak : Item :=
  ⟨some "Finished: Project Hail Mary by Andy Weir", none, none, none, none, none⟩

/-- The finished item used for the subtitle-stripping example. -/
def itemFinPHM : Item :=
  ⟨some "Finished: Project Hail Mary by Andy Weir", none, none, none, none, none⟩

/-- The finished item used for the author-capture example. -/
def itemFinAuthor : Item :=
  ⟨some "Finished: Project Hail Mary by Andy Weir", none, none, none, none, none⟩

/-- A one-file remote gist whose content is the single line `X`. -/
def gistX : Gist := ⟨[⟨"status.md", "X"⟩]⟩

/-- A one-file remote gist holding unrelated content. -/
def gistStale : Gist := ⟨[⟨"status.md", "old text"⟩]⟩

/-! ### Helper lemmas -/

theorem entityFollowsAux_ampEscape (l : List Char) :
    ∀ seen, entityFollowsAux l seen = true → entityFollowsAux (ampEscape l) seen = true := by
  induction l with
  | nil => intro seen h; simp [entityFollowsAux] at h
  | cons c rest ih =>
    intro seen h
    by_cases hc : isEntityChar c = true
    · have hne : c ≠ '&' := by
        intro he; rw [he] at hc; exact absurd hc (by decide)
      simp only [entityFollowsAux, hc, if_true] at h
      simp only [ampEscape, if_neg hne, entityFollowsAux, hc, if_true]
      exact ih true h
    · by_cases hs : c = ';'
      · subst hs
        have h7 : isEntityChar ';' = false := by decide
        have h8 : (';' : Char) ≠ '&' := by decide
        have hseen : seen = true := by
          simpa [entityFollowsAux, h7] using h
        simp [ampEscape, if_neg h8, entityFollowsAux, h7, hseen]
      · exfalso
        simp [entityFollowsAux, hc, hs] at h

theorem ampEscape_idem (l : List Char) : ampEscape (ampEscape l) = ampEscape l := by
  induction l with
  | nil => rfl
  | cons c rest ih =>
    by_cases hc : c = '&'
    · subst hc
      by_cases hf : entityFollows rest = true
      · have hf' : entityFollows (ampEscape rest) = true :=
          entityFollowsAux_ampEscape rest false hf
        simp only [ampEscape, if_pos rfl, hf, if_true]
        simp only [entityFollows] at hf'
        simp only [entityFollows, hf', if_true, ih]
      · have hfalse : entityFollows rest = false := by
          cases h : entityFollows rest
          · rfl
          · exact absurd h hf
        have e1 : ampEscape ('&' :: rest) = '&' :: 'a' :: 'm' :: 'p' :: ';' :: ampEscape rest := by
          simp only [ampEscape, if_pos rfl, hfalse]
          simp
        rw [e1]
        have e2 : ampEscape ('&' :: 'a' :: 'm' :: 'p' :: ';' :: ampEscape rest)
            = '&' :: 'a' :: 'm' :: 'p' :: ';' :: ampEscape (ampEscape rest) := rfl
        rw [e2, ih]
    · simp only [ampEscape, if_neg hc, ih]

theorem entityFollowsAux_true_iff (v : List Char) :
    entityFollowsAux v true = true ↔ ∃ u w, v = u ++ ';' :: w ∧ u.all isEntityChar = true := by
  induction v with
  | nil =>
    constructor
    · intro h; simp [entityFollowsAux] at h
    · rintro ⟨u, w, h, -⟩
      exact absurd h (by cases u <;> simp)
  | cons c r ih =>
    by_cases hc : isEntityChar c = true
    · have hstep : entityFollowsAux (c :: r) true = entityFollowsAux r true := by
        simp [entityFollowsAux, hc]
      rw [hstep, ih]
      constructor
      · rintro ⟨u, w, hr, hall⟩
        exact ⟨c :: u, w, by rw [hr]; rfl, by simp [hc, hall]⟩
      · rintro ⟨u, w, hv, hall⟩
        cases u with
        | nil =>
          rw [List.nil_append, List.cons.injEq] at hv
          rw [hv.1] at hc; exact absurd hc (by decide)
        | cons d u' =>
          rw [List.cons_append, List.cons.injEq] at hv
          obtain ⟨h1, h2⟩ := hv
          subst h1
          simp only [List.all_cons, Bool.and_eq_true] at hall
          exact ⟨u', w, h2, hall.2⟩
    · by_cases hs : c = ';'
      · subst hs
        have h7 : isEntityChar ';' = false := by decide
        constructor
        · intro _; exact ⟨[], r, rfl, rfl⟩
        · intro _; simp [entityFollowsAux, h7]
      · constructor
        · intro h; simp [entityFollowsAux, hc, hs] at h
        · rintro ⟨u, w, hv, hall⟩
          cases u with
          | nil =>
            rw [List.nil_append, List.cons.injEq] at hv
            exact absurd hv.1 hs
          | cons d u' =>
            rw [List.cons_append, List.cons.injEq] at hv
            obtain ⟨h1, h2⟩ := hv
            subst h1
            simp [hc] at hall

theorem entityFollows_iff (v : List Char) :
    entityFollows v = true ↔
      ∃ u w, v = u ++ ';' :: w ∧ u ≠ [] ∧ u.all isEntityChar = true := by
  cases v with
  | nil =>
    constructor
    · intro h; simp [entityFollows, entityFollowsAux] at h
    · rintro ⟨u, w, hv, hne, -⟩
      cases u <;> simp_all
  | cons c r =>
    by_cases hc : isEntityChar c = true
    · have hstep : entityFollows (c :: r) = entityFollowsAux r true := by
        simp [entityFollows, entityFollowsAux, hc]
      rw [hstep, entityFollowsAux_true_iff]
      constructor
      · rintro ⟨u, w, hr, hall⟩
        exact ⟨c :: u, w, by rw [hr]; rfl, by simp, by simp [hc, hall]⟩
      · rintro ⟨u, w, hv, hne, hall⟩
        cases u with
        | nil => exact absurd rfl hne
        | cons d u' =>
          rw [List.cons_append, List.cons.injEq] at hv
          obtain ⟨h1, h2⟩ := hv
          subst h1
          simp only [List.all_cons, Bool.and_eq_true] at hall
          exact ⟨u', w, h2, hall.2⟩
    · constructor
      · intro h
        exfalso
        have h7 : isEntityChar ';' = false := by decide
        by_cases hs : c = ';'
        · subst hs; simp [entityFollows, entityFollowsAux, h7] at h
        · simp [entityFollows, entityFollowsAux, hc, hs] at h
      · rintro ⟨u, w, hv, hne, hall⟩
        cases u with
        | nil => exact absurd rfl hne
        | cons d u' =>
          rw [List.cons_append, List.cons.injEq] at hv
          obtain ⟨h1, h2⟩ := hv
          subst h1
          simp [hc] at hall

theorem stepGR_books (cutoff : Int) (fmt : Int → String) (st : GRState) (it : Item) :
    (stepGR cutoff fmt st it).books = st.books ++ (finishedBookOf cutoff fmt it).toList := by
  simp only [stepGR, finishedBookOf]
  cases hcr : extractCRgr it with
  | some p =>
    obtain ⟨t, a⟩ := p
    cases hf : extractFinishedGR it with
    | some q =>
      obtain ⟨t2, a2, d⟩ := q
      by_cases hd : cutoff ≤ d <;> simp [hd]
    | none => simp
  | none =>
    cases hf : extractFinishedGR it with
    | some q =>
      obtain ⟨t2, a2, d⟩ := q
      by_cases hd : cutoff ≤ d <;> simp [hd]
    | none => simp

theorem stepGR_crPair (cutoff : Int) (fmt : Int → String) (st : GRState) (it : Item) :
    ((stepGR cutoff fmt st it).crTitle, (stepGR cutoff fmt st it).crAuthor)
      = (extractCRgr it).getD (st.crTitle, st.crAuthor) := by
  simp only [stepGR]
  cases hcr : extractCRgr it with
  | some p =>
    obtain ⟨t, a⟩ := p
    cases hf : extractFinishedGR it with
    | some q =>
      obtain ⟨t2, a2, d⟩ := q
      by_cases hd : cutoff ≤ d <;> simp [hd]
    | none => simp
  | none =>
    cases hf : extractFinishedGR it with
    | some q =>
      obtain ⟨t2, a2, d⟩ := q
      by_cases hd : cutoff ≤ d <;> simp [hd]
    | none => simp

theorem extractGR_books_eq (cutoff : Int) (fmt : Int → String) (items : List Item) :
    ∀ init : GRState,
      (items.foldl (stepGR cutoff fmt) init).books
        = init.books ++ items.filterMap (finishedBookOf cutoff fmt) := by
  induction items with
  | nil => intro init; simp
  | cons it rest ih =>
    intro init
    simp only [List.foldl_cons]
    rw [ih, stepGR_books]
    cases hf : finishedBookOf cutoff fmt it <;>
      simp [List.filterMap_cons, hf, List.append_assoc]

theorem extractGR_crPair_eq (cutoff : Int) (fmt : Int → String) (items : List Item) :
    ∀ init : GRState,
      ((items.foldl (stepGR cutoff fmt) init).crTitle,
        (items.foldl (stepGR cutoff fmt) init).crAuthor)
        = (items.reverse.findSome? extractCRgr).getD (init.crTitle, init.crAuthor) := by
  induction items with
  | nil => intro init; simp
  | cons it rest ih =>
    intro init
    simp only [List.foldl_cons, List.reverse_cons, List.findSome?_append]
    rw [ih]
    cases hrest : rest.reverse.findSome? extractCRgr with
    | some p => simp [Option.or]
    | none =>
      simp only [Option.none_or]
      rw [stepGR_crPair]
      cases hcr : extractCRgr it <;> simp [List.findSome?, hcr]

theorem finishedBookOf_le (cutoff : Int) (fmt : Int → String) (it : Item) (b : Book)
    (h : finishedBookOf cutoff fmt it = some b) : cutoff ≤ b.pubDate := by
  unfold finishedBookOf at h
  cases hf : extractFinishedGR it with
  | none => rw [hf] at h; exact absurd h (by simp)
  | some q =>
    obtain ⟨t, a, d⟩ := q
    rw [hf] at h
    by_cases hd : cutoff ≤ d
    · simp only [hd, if_true, Option.some.injEq] at h
      rw [← h]
      exact hd
    · simp [hd] at h

theorem finishedBookOf_of_extract (cutoff : Int) (fmt : Int → String) (it : Item)
    (t a : String) (d : Int) (hf : extractFinishedGR it = some (t, a, d))
    (hd : cutoff ≤ d) : finishedBookOf cutoff fmt it = some ⟨t, a, fmt d, d⟩ := by
  unfold finishedBookOf
  rw [hf]
  simp [hd]

theorem mem_insertBook (b x : Book) (l : List Book) :
    x ∈ insertBook b l ↔ x = b ∨ x ∈ l := by
  induction l with
  | nil => simp [insertBook]
  | cons c rest ih =>
    by_cases hcb : c.pubDate < b.pubDate
    · simp only [insertBook, hcb, if_true, List.mem_cons]
    · simp only [insertBook, hcb, if_false, List.mem_cons, ih]
      tauto

theorem sorted_insertBook (b : Book) (l : List Book)
    (h : List.Sorted (fun x y : Book => y.pubDate ≤ x.pubDate) l) :
    List.Sorted (fun x y : Book => y.pubDate ≤ x.pubDate) (insertBook b l) := by
  induction l with
  | nil => simp [insertBook]
  | cons c rest ih =>
    rw [List.sorted_cons] at h
    obtain ⟨hc, hrest⟩ := h
    by_cases hcb : c.pubDate < b.pubDate
    · simp only [insertBook, hcb, if_true]
      rw [List.sorted_cons]
      refine ⟨?_, List.sorted_cons.mpr ⟨hc, hrest⟩⟩
      intro x hx
      rcases List.mem_cons.mp hx with hxc | hxr
      · rw [hxc]; exact le_of_lt hcb
      · exact le_trans (hc x hxr) (le_of_lt hcb)
    · simp only [insertBook, hcb, if_false]
      rw [List.sorted_cons]
      refine ⟨?_, ih hrest⟩
      intro x hx
      rcases (mem_insertBook b x rest).mp hx with hxb | hxr
      · rw [hxb]; exact not_lt.mp hcb
      · exact hc x hxr

theorem sorted_sortBooks_aux (l : List Book) :
    ∀ acc, List.Sorted (fun x y : Book => y.pubDate ≤ x.pubDate) acc →
      List.Sorted (fun x y : Book => y.pubDate ≤ x.pubDate)
        (l.foldl (fun acc b => insertBook b acc) acc) := by
  induction l with
  | nil => intro acc h; simpa using h
  | cons b rest ih =>
    intro acc h
    exact ih _ (sorted_insertBook b acc h)

theorem sorted_sortBooks (l : List Book) :
    List.Sorted (fun x y : Book => y.pubDate ≤ x.pubDate) (sortBooks l) :=
  sorted_sortBooks_aux l [] (by simp)

theorem mem_sortBooks_aux (l : List Book) :
    ∀ acc x, x ∈ l.foldl (fun acc b => insertBook b acc) acc ↔ x ∈ acc ∨ x ∈ l := by
  induction l with
  | nil => intro acc x; simp
  | cons b rest ih =>
    intro acc x
    simp only [List.foldl_cons, ih, mem_insertBook, List.mem_cons]
    tauto

theorem mem_sortBooks (l : List Book) (x : Book) : x ∈ sortBooks l ↔ x ∈ l := by
  unfold sortBooks
  rw [mem_sortBooks_aux]
  simp

theorem simpleStep1_crPair (st : SimpleState) (it : Item) :
    ((simpleStep1 st it).crTitle, (simpleStep1 st it).crAuthor)
      = (extractCRsimple it).getD (st.crTitle, st.crAuthor) := by
  simp only [simpleStep1]
  cases hcr : extractCRsimple it with
  | some p => obtain ⟨t, a⟩ := p; simp
  | none => simp

theorem simpleLoop_crPair (items : List Item) :
    ∀ st : SimpleState,
      ((simpleLoop st items).crTitle, (simpleLoop st items).crAuthor)
        = ((visitedSimple items).reverse.findSome? extractCRsimple).getD
            (st.crTitle, st.crAuthor) := by
  induction items with
  | nil => intro st; simp [simpleLoop, visitedSimple]
  | cons it rest ih =>
    intro st
    cases hq : extractFinishedSimple it with
    | some q =>
      obtain ⟨t2, a2⟩ := q
      have e1 : simpleLoop st (it :: rest)
          = { simpleStep1 st it with rrTitle := t2, rrAuthor := a2 } := by
        simp [simpleLoop, hq]
      have e2 : visitedSimple (it :: rest) = [it] := by
        simp [visitedSimple, hq]
      rw [e1, e2]
      have e3 : (({ simpleStep1 st it with rrTitle := t2, rrAuthor := a2 } : SimpleState).crTitle,
          ({ simpleStep1 st it with rrTitle := t2, rrAuthor := a2 } : SimpleState).crAuthor)
          = ((simpleStep1 st it).crTitle, (simpleStep1 st it).crAuthor) := rfl
      rw [e3, simpleStep1_crPair]
      cases hcr : extractCRsimple it <;> simp [List.findSome?, hcr]
    | none =>
      have e1 : simpleLoop st (it :: rest) = simpleLoop (simpleStep1 st it) rest := by
        simp [simpleLoop, hq]
      have e2 : visitedSimple (it :: rest) = it :: visitedSimple rest := by
        simp [visitedSimple, hq]
      rw [e1, e2, ih, List.reverse_cons, List.findSome?_append]
      cases hrest : (visitedSimple rest).reverse.findSome? extractCRsimple with
      | some p => simp [Option.or]
      | none =>
        simp only [Option.none_or]
        rw [simpleStep1_crPair]
        cases hcr : extractCRsimple it <;> simp [List.findSome?, hcr]

theorem mem_trimL (l : List Char) (x : Char) (h : x ∈ trimL l) : x ∈ l := by
  unfold trimL at h
  have h1 := List.mem_reverse.mp h
  have h2 := List.Sublist.mem h1 (List.dropWhile_sublist _)
  have h3 := List.mem_reverse.mp h2
  exact List.Sublist.mem h3 (List.dropWhile_sublist _)

theorem head_dropWhile_not (p : Char → Bool) (l : List Char) (c : Char) (r : List Char)
    (h : l.dropWhile p = c :: r) : p c = false := by
  induction l with
  | nil => simp [List.dropWhile] at h
  | cons d l' ih =>
    rw [List.dropWhile_cons] at h
    by_cases hd : p d
    · rw [if_pos hd] at h; exact ih h
    · rw [if_neg hd] at h
      have : d = c := (List.cons.injEq d l' c r).mp h |>.1
      rw [← this]
      exact Bool.eq_false_iff.mpr hd

theorem all_takeWhile_pred (p : Char → Bool) (l : List Char) :
    (l.takeWhile p).all p = true := by
  induction l with
  | nil => rfl
  | cons d l' ih =>
    rw [List.takeWhile_cons]
    by_cases hd : p d
    · rw [if_pos hd]; simp [hd, ih]
    · rw [if_neg hd]; rfl

theorem afterByGroup2_author (l g2 : List Char) (h : afterByGroup2 l = some g2) :
    (trimL g2).all (fun c => !isSpaceChar c) = true := by
  unfold afterByGroup2 at h
  by_cases hsp : (l.takeWhile isSpaceChar).isEmpty
  · rw [if_pos hsp] at h; exact absurd h (by simp)
  · rw [if_neg hsp] at h
    cases hd : l.dropWhile isSpaceChar with
    | cons c r =>
      rw [hd] at h
      have hc : isSpaceChar c = false := head_dropWhile_not isSpaceChar l c r hd
      have hg2 : g2 = c :: r.takeWhile (fun d => !isSpaceChar d) := by
        have h' := h; simp only [Option.some.injEq] at h'; exact h'.symm
      have hall : g2.all (fun c => !isSpaceChar c) = true := by
        rw [hg2]
        simp only [List.all_cons, Bool.and_eq_true]
        constructor
        · simp [hc]
        · exact all_takeWhile_pred _ r
      rw [List.all_eq_true] at hall ⊢
      intro x hx
      exact hall x (mem_trimL g2 x hx)
    | nil =>
      rw [hd] at h
      by_cases h2 : 2 ≤ (l.takeWhile isSpaceChar).length
      · rw [if_pos h2] at h
        simp only [Option.some.injEq] at h
        have hall : ∀ x ∈ g2, isSpaceChar x = true := by
          intro x hx
          rw [← h] at hx
          have hx2 := List.Sublist.mem hx (List.drop_sublist _ _)
          exact (List.all_eq_true.mp (all_takeWhile_pred isSpaceChar l)) x hx2
        have htr : trimL g2 = [] := by
          unfold trimL
          have hdrop : g2.dropWhile isSpaceChar = [] := by
            rw [List.dropWhile_eq_nil_iff]
            intro x hx
            exact hall x hx
          rw [hdrop]
          rfl
        rw [htr]
        rfl
      · rw [if_neg h2] at h; exact absurd h (by simp)

theorem contAfterG1_author (l g2 : List Char) (h : contAfterG1 l = some g2) :
    (trimL g2).all (fun c => !isSpaceChar c) = true := by
  unfold contAfterG1 at h
  by_cases hsp : (l.takeWhile isSpaceChar).isEmpty
  · rw [if_pos hsp] at h; exact absurd h (by simp)
  · rw [if_neg hsp] at h
    cases hci : dropCI ('b' :: 'y' :: []) (l.dropWhile isSpaceChar) with
    | some r2 => rw [hci] at h; exact afterByGroup2_author r2 g2 h
    | none => rw [hci] at h; exact absurd h (by simp)

theorem bodyAux_author (l : List Char) :
    ∀ acc g1 g2, bodyAux acc l = some (g1, g2) →
      (trimL g2).all (fun c => !isSpaceChar c) = true := by
  induction l with
  | nil =>
    intro acc g1 g2 h
    simp only [bodyAux] at h
    cases hc : contAfterG1 [] with
    | some g => rw [hc] at h
                simp only [Option.some.injEq, Prod.mk.injEq] at h
                exact h.2 ▸ contAfterG1_author [] g hc
    | none => rw [hc] at h; exact absurd h (by simp)
  | cons c l' ih =>
    intro acc g1 g2 h
    simp only [bodyAux] at h
    cases hc : contAfterG1 (c :: l') with
    | some g => rw [hc] at h
                simp only [Option.some.injEq, Prod.mk.injEq] at h
                exact h.2 ▸ contAfterG1_author (c :: l') g hc
    | none =>
      rw [hc] at h
      by_cases hdot : isDotChar c
      · rw [if_pos hdot] at h; exact ih (c :: acc) g1 g2 h
      · rw [if_neg hdot] at h; exact absurd h (by simp)

theorem bodyMatch_author (l g1 g2 : List Char) (h : bodyMatch l = some (g1, g2)) :
    (trimL g2).all (fun c => !isSpaceChar c) = true := by
  cases l with
  | nil => exact absurd h (by simp [bodyMatch])
  | cons c r =>
    simp only [bodyMatch] at h
    by_cases hdot : isDotChar c
    · rw [if_pos hdot] at h; exact bodyAux_author r [c] g1 g2 h
    · rw [if_neg hdot] at h; exact absurd h (by simp)

theorem tryColonRunBody_author (r : List Char) :
    ∀ j g1 g2, tryColonRunBody r j = some (g1, g2) →
      (trimL g2).all (fun c => !isSpaceChar c) = true := by
  intro j
  induction j with
  | zero => intro g1 g2 h; exact absurd h (by simp [tryColonRunBody])
  | succ n ih =>
    intro g1 g2 h
    simp only [tryColonRunBody] at h
    cases hb : bodyMatch (r.drop (n + 1)) with
    | some res => rw [hb] at h
                  obtain ⟨b1, b2⟩ := res
                  simp only [Option.some.injEq, Prod.mk.injEq] at h
                  exact h.2 ▸ bodyMatch_author _ b1 b2 hb
    | none => rw [hb] at h; exact ih g1 g2 h

theorem attemptCRsimple_author (l g1 g2 : List Char)
    (h : attemptCRsimple l = some (g1, g2)) :
    (trimL g2).all (fun c => !isSpaceChar c) = true := by
  unfold attemptCRsimple at h
  cases hm : dropCI "currently reading".data l with
  | some r =>
    rw [hm] at h
    dsimp only at h
    cases ht : tryColonRunBody r (r.takeWhile isColonSpace).length with
    | some res =>
      obtain ⟨b1, b2⟩ := res
      rw [ht] at h
      simp only [Option.some.injEq, Prod.mk.injEq] at h
      exact h.2 ▸ tryColonRunBody_author r _ b1 b2 ht
    | none =>
      rw [ht] at h
      exact bodyMatch_author l g1 g2 h
  | none =>
    rw [hm] at h
    dsimp only at h
    exact bodyMatch_author l g1 g2 h

theorem attemptFinishedSimple_author (l g1 g2 : List Char)
    (h : attemptFinishedSimple l = some (g1, g2)) :
    (trimL g2).all (fun c => !isSpaceChar c) = true := by
  unfold attemptFinishedSimple at h
  cases hm : dropCI "finished".data l with
  | some r =>
    rw [hm] at h
    dsimp only at h
    cases ht : tryColonRunBody r (r.takeWhile isColonSpace).length with
    | some res =>
      obtain ⟨b1, b2⟩ := res
      rw [ht] at h
      simp only [Option.some.injEq, Prod.mk.injEq] at h
      exact h.2 ▸ tryColonRunBody_author r _ b1 b2 ht
    | none =>
      rw [ht] at h
      cases hm2 : dropCI "read".data l with
      | some r2 =>
        rw [hm2] at h
        dsimp only at h
        cases ht2 : tryColonRunBody r2 (r2.takeWhile isColonSpace).length with
        | some res =>
          obtain ⟨b1, b2⟩ := res
          rw [ht2] at h
          simp only [Option.some.injEq, Prod.mk.injEq] at h
          exact h.2 ▸ tryColonRunBody_author r2 _ b1 b2 ht2
        | none => rw [ht2] at h; exact absurd h (by simp)
      | none => rw [hm2] at h; exact absurd h (by simp)
  | none =>
    rw [hm] at h
    dsimp only at h
    cases hm2 : dropCI "read".data l with
    | some r2 =>
      rw [hm2] at h
      dsimp only at h
      cases ht2 : tryColonRunBody r2 (r2.takeWhile isColonSpace).length with
      | some res =>
        obtain ⟨b1, b2⟩ := res
        rw [ht2] at h
        simp only [Option.some.injEq, Prod.mk.injEq] at h
        exact h.2 ▸ tryColonRunBody_author r2 _ b1 b2 ht2
      | none => rw [ht2] at h; exact absurd h (by simp)
    | none => rw [hm2] at h; exact absurd h (by simp)

theorem scanCRsimple_author (l : List Char) :
    ∀ g1 g2, scanCRsimple l = some (g1, g2) →
      (trimL g2).all (fun c => !isSpaceChar c) = true := by
  induction l with
  | nil => intro g1 g2 h; exact absurd h (by simp [scanCRsimple])
  | cons c rest ih =>
    intro g1 g2 h
    simp only [scanCRsimple] at h
    cases ha : attemptCRsimple (c :: rest) with
    | some res => rw [ha] at h
                  obtain ⟨b1, b2⟩ := res
                  simp only [Option.some.injEq, Prod.mk.injEq] at h
                  exact h.2 ▸ attemptCRsimple_author _ b1 b2 ha
    | none => rw [ha] at h; exact ih g1 g2 h

theorem scanFinishedSimple_author (l : List Char) :
    ∀ g1 g2, scanFinishedSimple l = some (g1, g2) →
      (trimL g2).all (fun c => !isSpaceChar c) = true := by
  induction l with
  | nil => intro g1 g2 h; exact absurd h (by simp [scanFinishedSimple])
  | cons c rest ih =>
    intro g1 g2 h
    simp only [scanFinishedSimple] at h
    cases ha : attemptFinishedSimple (c :: rest) with
    | some res => rw [ha] at h
                  obtain ⟨b1, b2⟩ := res
                  simp only [Option.some.injEq, Prod.mk.injEq] at h
                  exact h.2 ▸ attemptFinishedSimple_author _ b1 b2 ha
    | none => rw [ha] at h; exact ih g1 g2 h

/-! ### The claims -/

/-- Claim C1: snapshot publishing is idempotent.  When the first file of the
remote gist already holds the joined snapshot text, `updateGist` performs no
write; every invocation performs at most one write; and a second run of the
full pipeline on the same feed input, against the remote state the first run
left behind, performs zero writes. -/
theorem publish_skip_unchanged_claim :
    (∀ (creds : Bool) (g : Gist) (s : List String) (f : GistFile) (rest : List GistFile),
        g.files = f :: rest → f.fileContent = String.intercalate "\n" s →
        writesOf (updateGist creds (some g) s) = [])
    ∧ (∀ (creds : Bool) (r : Option Gist) (s : List String),
        (writesOf (updateGist creds r s)).length ≤ 1)
    ∧ (∀ (wA wB : String → String) (cutoff : Int) (fmt : Int → String)
        (creds : Bool) (g : Gist) (input : FeedInput),
        writesOf (mainRun wA wB cutoff fmt creds
          (some (applyPublish g (mainRun wA wB cutoff fmt creds (some g) input))) input)
          = []) := by
  refine ⟨?_, ?_, ?_⟩
  · intro creds g s f rest hg hc
    cases creds
    · rfl
    · simp [updateGist, hg, hc, writesOf]
  · intro creds r s
    cases creds
    · simp [updateGist, writesOf]
    · cases r with
      | none => simp [updateGist, writesOf]
      | some g =>
        cases hf : g.files with
        | nil => simp [updateGist, hf, writesOf]
        | cons f rest =>
          by_cases hc : f.fileContent = String.intercalate "\n" s
          · simp [updateGist, hf, hc, writesOf]
          · simp [updateGist, hf, hc, writesOf]
  · intro wA wB cutoff fmt creds g input
    show writesOf (updateGist creds
      (some (applyPublish g (updateGist creds (some g) (snapshotOf wA wB cutoff fmt input))))
      (snapshotOf wA wB cutoff fmt input)) = []
    cases creds
    · rfl
    · cases hf : g.files with
      | nil => simp [updateGist, hf, applyPublish, writesOf]
      | cons f rest =>
        by_cases hc : f.fileContent = String.intercalate "\n" (snapshotOf wA wB cutoff fmt input)
        · simp [updateGist, hf, hc, applyPublish, writesOf]
        · simp [updateGist, hf, hc, applyPublish, writesOf, replaceFile]

/-- Witness for C1: on a gist whose single file already equals the snapshot
`"X"`, the publish step performs no write. -/
theorem publish_skip_unchanged_claim_witness :
    writesOf (updateGist true (some gistX) ["X"]) = [] :=
  publish_skip_unchanged_claim.1 true gistX ["X"] ⟨"status.md", "X"⟩ [] rfl rfl

/-- Claim C2: when reading the remote gist fails, the publish step aborts
with no write, whatever the snapshot and whether or not credentials are
present. -/
theorem publish_read_failure_claim :
    ∀ s : List String,
      updateGist true none s = PublishResult.readFailed
      ∧ ∀ creds : Bool, writesOf (updateGist creds none s) = [] := by
  intro s
  refine ⟨rfl, ?_⟩
  intro creds
  cases creds <;> rfl

/-- Claim C3: a fetch failure or a parse failure is converted into the
deterministic fallback snapshot (both segments their "nothing found"
literals, each put through the run's wrap function), which is still handed
to the publish step; on a readable gist holding different content this
results in a write of exactly the fallback snapshot. -/
theorem fallback_publish_claim :
    (∀ (wA wB : String → String) (cutoff : Int) (fmt : Int → String)
        (creds : Bool) (r : Option Gist),
      mainRun wA wB cutoff fmt creds r FeedInput.parseFail
        = updateGist creds r [wA fallbackCR, wA fallbackRR]
      ∧ mainRun wA wB cutoff fmt creds r FeedInput.fetchFail
        = updateGist creds r [wB fallbackCR, wB fallbackRR])
    ∧ (∀ (cutoff : Int) (fmt : Int → String) (g : Gist) (f : GistFile)
        (rest : List GistFile),
      g.files = f :: rest →
      f.fileContent ≠ String.intercalate "\n" [fallbackCR, fallbackRR] →
      mainRun wrapId wrapId cutoff fmt true (some g) FeedInput.parseFail
        = PublishResult.updated f.filename
            (String.intercalate "\n" [fallbackCR, fallbackRR])) := by
  constructor
  · intro wA wB cutoff fmt creds r
    exact ⟨rfl, rfl⟩
  · intro cutoff fmt g f rest hg hc
    show updateGist true (some g) [wrapId fallbackCR, wrapId fallbackRR] = _
    simp [updateGist, hg, wrapId, hc]

/-- Witness for C3: with stale remote content, the parse-failure run writes
the fallback snapshot. -/
theorem fallback_publish_claim_witness :
    mainRun wrapId wrapId 0 fmtConst true (some gistStale) FeedInput.parseFail
      = PublishResult.updated "status.md" (String.intercalate "\n" [fallbackCR, fallbackRR]) :=
  fallback_publish_claim.2 0 fmtConst gistStale ⟨"status.md", "old text"⟩ [] rfl (by decide)

/-- Counterexample to claim C4 as stated: sanitization does rewrite the
content of a CDATA block — the block `<![CDATA[a & b]]>` does not come back
unchanged. -/
theorem cdata_preserved_counterexample :
    sanitizeXML "<![CDATA[a & b]]>" ≠ "<![CDATA[a & b]]>" := by decide

/-- Claim C4 as amended: `sanitizeXML` has no CDATA extraction step, so the
escaping rule applies inside literal blocks like anywhere else: the `&`
inside `<![CDATA[a & b]]>` is rewritten to `&amp;`. -/
theorem cdata_escaped_inside :
    sanitizeXML "<![CDATA[a & b]]>" = "<![CDATA[a &amp; b]]>" := by decide

/-- Counterexample to claim C5 as stated: sanitization is not idempotent —
on `<a / />x</a>` a second application changes the result again. -/
theorem sanitize_idempotent_counterexample :
    sanitizeXML (sanitizeXML "<a / />x</a>") ≠ sanitizeXML "<a / />x</a>" := by decide

/-- Claim C5 as amended: the ampersand-escaping rule alone is idempotent on
every input, but full sanitization is not: the tag-repair rule strips one
stray `\s*/` per pass, sending `<a / />x</a>` to `<a />x</a>` and that to
`<a>x</a>`. -/
theorem sanitize_amp_rule_idempotent :
    (∀ l : List Char, ampEscape (ampEscape l) = ampEscape l)
    ∧ sanitizeXML "<a / />x</a>" = "<a />x</a>"
    ∧ sanitizeXML "<a />x</a>" = "<a>x</a>" :=
  ⟨ampEscape_idem, by decide, by decide⟩

/-- Counterexample to claim C6 as stated: the code's lookahead accepts
`1;`, which is not a valid entity reference under the spec's grammar, so
the `&` of `&1;` is (contrary to the claim) left unescaped. -/
theorem amp_spec_grammar_counterexample :
    specValidEntityFollows ('1' :: ';' :: []) = false
    ∧ sanitizeXML "&1;" = "&1;" := by decide

/-- Claim C6 as amended: sanitization escapes into `&amp;` exactly those
`&` characters not followed by `[a-zA-Z0-9#]+;` (one or more letters,
digits or `#`, then a semicolon); in particular `Tom & Jerry` becomes
`Tom &amp; Jerry` and `Q&amp;A` is unchanged. -/
theorem amp_rule_code_grammar :
    (∀ v : List Char,
      ((∃ u w, v = u ++ ';' :: w ∧ u ≠ [] ∧ u.all isEntityChar = true) →
        ampEscape ('&' :: v) = '&' :: ampEscape v)
      ∧ (¬(∃ u w, v = u ++ ';' :: w ∧ u ≠ [] ∧ u.all isEntityChar = true) →
        ampEscape ('&' :: v) = '&' :: 'a' :: 'm' :: 'p' :: ';' :: ampEscape v))
    ∧ sanitizeXML "Tom & Jerry" = "Tom &amp; Jerry"
    ∧ sanitizeXML "Q&amp;A" = "Q&amp;A" := by
  refine ⟨fun v => ⟨?_, ?_⟩, by decide, by decide⟩
  · intro hex
    have hf : entityFollows v = true := (entityFollows_iff v).mpr hex
    simp [ampEscape, hf]
  · intro hnex
    have hf : entityFollows v = false := by
      cases h : entityFollows v
      · rfl
      · exact absurd ((entityFollows_iff v).mp h) hnex
    simp [ampEscape, hf]

/-- Witness for C6: an `&` before `amp;` is kept, an `&` before a space is
escaped. -/
theorem amp_rule_code_grammar_witness :
    ampEscape ('&' :: 'a' :: 'm' :: 'p' :: ';' :: [])
      = '&' :: ampEscape ('a' :: 'm' :: 'p' :: ';' :: [])
    ∧ ampEscape ('&' :: ' ' :: [])
      = '&' :: 'a' :: 'm' :: 'p' :: ';' :: ampEscape (' ' :: []) := by
  constructor
  · exact (amp_rule_code_grammar.1 ('a' :: 'm' :: 'p' :: ';' :: [])).1
      ⟨'a' :: 'm' :: 'p' :: [], [], rfl, by decide, by decide⟩
  · refine (amp_rule_code_grammar.1 (' ' :: [])).2 ?_
    rintro ⟨u, w, hv, hne, hall⟩
    cases u with
    | nil => exact absurd rfl hne
    | cons d u' =>
      rw [List.cons_append, List.cons.injEq] at hv
      obtain ⟨h1, h2⟩ := hv
      subst h1
      have h7 : isEntityChar ' ' = false := by decide
      simp [h7] at hall

/-- Claim C7: in the Goodreads convention every collected finished book is
within the horizon (so older facts are excluded), every extracted finished
fact within the horizon is collected, and the list the renderer receives is
the collected list sorted in descending order of finish timestamp. -/
theorem goodreads_window_and_sort :
    ∀ (cutoff : Int) (fmt : Int → String) (items : List Item),
      (∀ b ∈ (extractGR cutoff fmt items).books, cutoff ≤ b.pubDate)
      ∧ (∀ it ∈ items, ∀ t a d, extractFinishedGR it = some (t, a, d) → cutoff ≤ d →
          (⟨t, a, fmt d, d⟩ : Book) ∈ (extractGR cutoff fmt items).books)
      ∧ (∀ b : Book, b ∈ sortBooks (extractGR cutoff fmt items).books ↔
          b ∈ (extractGR cutoff fmt items).books)
      ∧ List.Sorted (fun x y : Book => y.pubDate ≤ x.pubDate)
          (sortBooks (extractGR cutoff fmt items).books) := by
  intro cutoff fmt items
  have hbooks : (extractGR cutoff fmt items).books
      = items.filterMap (finishedBookOf cutoff fmt) := by
    have h := extractGR_books_eq cutoff fmt items grInit
    simpa [extractGR, grInit] using h
  refine ⟨?_, ?_, ?_, sorted_sortBooks _⟩
  · intro b hb
    rw [hbooks] at hb
    obtain ⟨it, hit, hsome⟩ := List.mem_filterMap.mp hb
    exact finishedBookOf_le cutoff fmt it b hsome
  · intro it hit t a d hf hd
    rw [hbooks]
    exact List.mem_filterMap.mpr ⟨it, hit, finishedBookOf_of_extract cutoff fmt it t a d hf hd⟩
  · intro b; exact mem_sortBooks _ b

/-- Witness for C7: a finished item with timestamp 5 is collected when the
cutoff is 0. -/
theorem goodreads_window_and_sort_witness :
    extractFinishedGR itemAddedDune = some ("Dune", "Frank Herbert stars", 5)
    ∧ ((0 : Int) ≤ (5 : Int))
    ∧ (⟨"Dune", "Frank Herbert stars", "d", 5⟩ : Book)
        ∈ (extractGR 0 fmtConst [itemAddedDune]).books := by
  refine ⟨by decide, by decide, ?_⟩
  exact (goodreads_window_and_sort 0 fmtConst [itemAddedDune]).2.1 itemAddedDune
    (by simp) "Dune" "Frank Herbert stars" 5 (by decide) (by decide)

/-- Counterexample to claim C8 as stated: in the simple loop, two entries
match the currently-reading pattern, but a finished match between them
breaks the loop, so the fact produced comes from the first matching entry,
not the last. -/
theorem cr_last_wins_counterexample :
    extractCRsimple itemCRone = some ("Dune", "Frank")
    ∧ extractCRsimple itemCRtwo = some ("Hyperion", "Dan")
    ∧ (extractFinishedSimple itemFinBreak).isSome = true
    ∧ ((simpleLoop simpleInit [itemCRone, itemFinBreak, itemCRtwo]).crTitle,
       (simpleLoop simpleInit [itemCRone, itemFinBreak, itemCRtwo]).crAuthor)
        = ("Dune", "Frank")
    ∧ ("Dune", "Frank") ≠ ("Hyperion", "Dan") := by decide

/-- Claim C8 as amended: currently-reading extraction is last-wins over the
entries the loop visits — the Goodreads loop visits every entry and its
final title and author are those of the last matching entry; the simple
loop stops after the first finished-book match, so its final title and
author are those of the last match among the visited prefix. -/
theorem cr_last_wins_visited :
    (∀ (cutoff : Int) (fmt : Int → String) (items : List Item),
      ((extractGR cutoff fmt items).crTitle, (extractGR cutoff fmt items).crAuthor)
        = (items.reverse.findSome? extractCRgr).getD ("", ""))
    ∧ (∀ items : List Item,
      ((simpleLoop simpleInit items).crTitle, (simpleLoop simpleInit items).crAuthor)
        = ((visitedSimple items).reverse.findSome? extractCRsimple).getD ("", "")) := by
  constructor
  · intro cutoff fmt items
    have h := extractGR_crPair_eq cutoff fmt items grInit
    simpa [extractGR, grInit] using h
  · intro items
    have h := simpleLoop_crPair items simpleInit
    simpa [simpleInit] using h

/-- Claim C9: text after a colon in an extracted title is discarded when
rendering — a fact titled `Dune: Part One` renders as `Dune`, and the title
`Finished: Project Hail Mary by Andy Weir` yields a finished fact rendered
with title `Project Hail Mary`. -/
theorem subtitle_stripping :
    renderCRsimple ⟨"Dune: Part One", "Frank Herbert", "", ""⟩
      = "Currently reading: Dune by Frank Herbert\n"
    ∧ extractFinishedSimple itemFinPHM = some ("Project Hail Mary", "Andy")
    ∧ renderRRsimple (simpleLoop simpleInit [itemFinPHM])
      = "Recently read: Project Hail Mary by Andy" := by decide

/-- Claim C10: the lazy author group of the simple patterns stops at the
first whitespace, so every author either extraction produces contains no
whitespace character; in particular `... by Andy Weir` yields author
`Andy`, not `Andy Weir`. -/
theorem author_capture_first_word :
    (∀ (it : Item) (t a : String), extractCRsimple it = some (t, a) →
        a.data.all (fun c => !isSpaceChar c) = true)
    ∧ (∀ (it : Item) (t a : String), extractFinishedSimple it = some (t, a) →
        a.data.all (fun c => !isSpaceChar c) = true)
    ∧ extractFinishedSimple itemFinAuthor = some ("Project Hail Mary", "Andy") := by
  refine ⟨?_, ?_, by decide⟩
  · intro it t a h
    unfold extractCRsimple at h
    dsimp only at h
    split at h
    · cases hs : scanCRsimple (titleOf it).data with
      | some p =>
        obtain ⟨g1, g2⟩ := p
        rw [hs] at h
        simp only [Option.some.injEq, Prod.mk.injEq] at h
        have hall := scanCRsimple_author _ g1 g2 hs
        rw [← h.2]
        exact hall
      | none => rw [hs] at h; exact absurd h (by simp)
    · exact absurd h (by simp)
  · intro it t a h
    unfold extractFinishedSimple at h
    dsimp only at h
    split at h
    · cases hs : scanFinishedSimple (titleOf it).data with
      | some p =>
        obtain ⟨g1, g2⟩ := p
        rw [hs] at h
        simp only [Option.some.injEq, Prod.mk.injEq] at h
        have hall := scanFinishedSimple_author _ g1 g2 hs
        rw [← h.2]
        exact hall
      | none => rw [hs] at h; exact absurd h (by simp)
    · exact absurd h (by simp)

/-- Witness for C10: the author extracted from the example title contains
no whitespace. -/
theorem author_capture_first_word_witness :
    ("Andy" : String).data.all (fun c => !isSpaceChar c) = true :=
  author_capture_first_word.2.1 itemFinAuthor "Project Hail Mary" "Andy" (by decide)
